import Mathlib

/-!
# Verification of the khronos priority-queue server

A shallow embedding, in Lean 4, of the Go repository `eatmoreapple/khronos`:
a routed priority queue exposed over the Redis serialization protocol (RESP).

The embedding follows the source files:

* `queue.go` — `Item`, `PriorityQueue` (the `container/heap` interface
  implementation) and `PriorityQueueWithRouting`;
* the RESP parser and protocol builder (`RespProtocolParser`,
  `protocolBuilder`, `CommandParser.ReadFrom`);
* `commands.go` — the command constructors, `Execute` methods and the
  `init`-time command registry;
* `server.go` — the per-connection error dispatch of `serveConn`.

Go slices become Lean lists, Go `int`/`int64` become `Int` (with explicit
range checks where the source checks them), and fallible code returns an
explicit result type.  Loops (`up`, `down` from `container/heap`) are modelled
with an explicit iteration bound (fuel); the bound used by the wrappers is
proved sufficient by the lemmas below, which only assume `fuel` at least the
loop's decreasing measure.
-/

/-! ## Items and the `container/heap` implementation (`queue.go`) -/

/-- `Item` from `queue.go`: a value, an `int64` priority and the heap index
bookkeeping field (`index`, a Go `int`, written by `Swap`/`Push`/`Pop` and
never read by the algorithm). -/
structure Item where
  value : String
  priority : Int
  index : Int
deriving DecidableEq, Repr

/-- The observable content of an item: its value and priority (the `index`
field is heap-internal bookkeeping). -/
def Item.key (it : Item) : String × Int := (it.value, it.priority)

/-- The zero `Item`, standing for Go's out-of-range slice access default in
the total indexing function `nth` (the algorithms never rely on it). -/
def defaultItem : Item := ⟨"", 0, 0⟩

/-- Total indexing into the queue slice. -/
def nth (l : List Item) (i : Nat) : Item := l.getD i defaultItem

/-- `PriorityQueue.Less` from `queue.go`: `pq[i].priority > pq[j].priority`. -/
def pqLess (a b : Item) : Bool := b.priority < a.priority

/-- `PriorityQueue.Swap` from `queue.go`: exchange positions `i` and `j` and
rewrite both `index` fields to their new positions. -/
def pqSwap (l : List Item) (i j : Nat) : List Item :=
  let a := nth l i
  let b := nth l j
  (l.set i { b with index := (i : Int) }).set j { a with index := (j : Int) }

/-- `PriorityQueue.Push` from `queue.go`: set `item.index` to the old length
and append. -/
def pqPush (l : List Item) (x : Item) : List Item :=
  l ++ [{ x with index := (l.length : Int) }]

/-- `PriorityQueue.Pop` from `queue.go`: take the last element, set its
`index` to `-1` "for safety", and shrink the slice. -/
def pqPopLast (l : List Item) : Item × List Item :=
  ({ nth l (l.length - 1) with index := -1 }, l.take (l.length - 1))

/-- The parent index of heap position `j` (Go: `i := (j - 1) / 2`). -/
def parentIdx (j : Nat) : Nat := (j - 1) / 2

/-- The sift-up loop of `container/heap.up`, with an explicit iteration bound:
`up` strictly decreases `j`, so any `fuel ≥ j` runs the loop to completion
(see `heapUpGo_fuel`). -/
def heapUpGo : Nat → List Item → Nat → List Item
  | _, l, 0 => l
  | 0, l, _ + 1 => l
  | fuel + 1, l, j + 1 =>
    let i := parentIdx (j + 1)
    if pqLess (nth l (j + 1)) (nth l i) then heapUpGo fuel (pqSwap l i (j + 1)) i
    else l

/-- `container/heap.up h j`: sift position `j` up toward the root. -/
def heapUp (l : List Item) (j : Nat) : List Item := heapUpGo j l j

/-- The child-selection step of `container/heap.down`: the left child
`j1 = 2*i+1`, replaced by the right child `j2 = j1+1` when `j2 < n` and
`Less(j2, j1)`. -/
def childSel (l : List Item) (i n : Nat) : Nat :=
  let j1 := 2 * i + 1
  if decide (j1 + 1 < n) && pqLess (nth l (j1 + 1)) (nth l j1) then j1 + 1
  else j1

/-- The sift-down loop of `container/heap.down`, with an explicit iteration
bound: each iteration moves `i` to a strict child, so `n - i` decreases and
any `fuel ≥ n - i` runs the loop to completion. -/
def heapDownGo : Nat → List Item → Nat → Nat → List Item
  | 0, l, _, _ => l
  | fuel + 1, l, i, n =>
    if 2 * i + 1 < n then
      if pqLess (nth l (childSel l i n)) (nth l i) then
        heapDownGo fuel (pqSwap l i (childSel l i n)) (childSel l i n) n
      else l
    else l

/-- `container/heap.down h i n`: sift position `i` down within the prefix of
length `n`. -/
def heapDown (l : List Item) (i n : Nat) : List Item := heapDownGo n l i n

/-- `container/heap.Push`: append via `PriorityQueue.Push`, then sift the last
position up. -/
def heapPush (l : List Item) (x : Item) : List Item :=
  heapUp (pqPush l x) ((pqPush l x).length - 1)

/-- `container/heap.Pop`: swap the root with the last element, sift the root
down within the shortened prefix, then remove the last element via
`PriorityQueue.Pop`.  The source only calls it with `Len() > 0` (`Dequeue`
checks `queue.Len() > 0`); the empty case is totalised with `none`. -/
def heapPop (l : List Item) : Option (Item × List Item) :=
  if l.length = 0 then none
  else
    let n := l.length - 1
    let l1 := pqSwap l 0 n
    let l2 := heapDown l1 0 n
    some (pqPopLast l2)

/-! ## Errors (`error.go`, `server.go`, `strconv`) -/

/-- The error values the embedded code can produce: `ErrQuit` (`server.go`),
`ErrInvalidSyntax` and the `io` read errors (protocol file), the command
errors (`error.go`), and `strconv` parse failures. -/
inductive GoErr where
  | errQuit
  | invalidSyntax
  | eof
  | wrongNumberOfArgs (cmd : String)
  | wrongCommand (cmd : String) (args : List String)
  | atoiSyntax (s : String)
  | atoiRange (s : String)
deriving DecidableEq, Repr

/-! ## RESP request parsing (`RespProtocolParser`) -/

/-- Result of a parsing step: a value plus the unconsumed input, an error, or
a Go runtime panic (which the parser can actually reach, see `readString`). -/
inductive PRes (α : Type) where
  | ok (val : α) (rest : List Char)
  | err (e : GoErr)
  | panic (msg : String)
deriving DecidableEq, Repr

/-- Split the stream at its first newline byte, returning the bytes before it
and the bytes after it. -/
def splitAtNewline : List Char → Option (List Char × List Char)
  | [] => none
  | c :: cs =>
    if c = '\n' then some ([], cs)
    else (splitAtNewline cs).map fun p => (c :: p.1, p.2)

/-- One trailing carriage return is dropped from a newline-terminated line
(`bufio.Reader.ReadLine` drops `\r\n` or `\n`). -/
def dropTrailingCR (line : List Char) : List Char :=
  if line.getLast? = some '\r' then line.dropLast else line

/-- `RespProtocolParser.readLine`, i.e. `bufio.Reader.ReadLine`: return the
bytes up to (not including) the first newline, dropping a preceding `\r`.
At end of input with no newline, `ReadLine` returns the remaining bytes
without an error when there are any, and `io.EOF` when there are none. -/
def readLine (input : List Char) : PRes (List Char)
  := match splitAtNewline input with
  | some (line, rest) => .ok (dropTrailingCR line) rest
  | none => if input = [] then .err .eof else .ok input []

/-- Decimal digits to a number; `none` if the list is empty or contains a
non-digit. -/
def digitsToNat? (ds : List Char) : Option Nat :=
  if ds = [] then none
  else ds.foldl (fun acc c =>
    match acc with
    | none => none
    | some n => if c.isDigit then some (n * 10 + (c.toNat - '0'.toNat)) else none)
    (some 0)

/-- `strconv.Atoi` (equivalently `strconv.ParseInt(s, 10, 64)` on a 64-bit
platform): an optional sign followed by at least one decimal digit, with a
signed 64-bit range check. -/
def goAtoi (s : List Char) : Except GoErr Int :=
  let signed : Bool × List Char :=
    match s with
    | '+' :: t => (false, t)
    | '-' :: t => (true, t)
    | t => (false, t)
  match digitsToNat? signed.2 with
  | none => .error (.atoiSyntax (String.mk s))
  | some n =>
    let v : Int := if signed.1 then -(n : Int) else (n : Int)
    if v < -(2 ^ 63) ∨ 2 ^ 63 - 1 < v then .error (.atoiRange (String.mk s))
    else .ok v

/-- `parseInt` from the protocol file: an empty byte slice is
`ErrInvalidSyntax`, otherwise `strconv.Atoi`. -/
def parseInt (b : List Char) : Except GoErr Int :=
  if b = [] then .error .invalidSyntax else goAtoi b

/-- `RespProtocolParser.readArrayLength`: read a line, require the `'*'`
marker (`ArrayReply`), and parse the remaining bytes as the length. -/
def readArrayLength (input : List Char) : PRes Int :=
  match readLine input with
  | .err e => .err e
  | .panic m => .panic m
  | .ok line rest =>
    match line with
    | [] => .err .invalidSyntax
    | c :: t =>
      if c ≠ '*' then .err .invalidSyntax
      else
        match parseInt t with
        | .error e => .err e
        | .ok n => .ok n rest

/-- `RespProtocolParser.readString`: read a line, require the `'$'` marker
(`StringReply`), parse the length, allocate `make([]byte, length)` — which
panics in Go when `length` is negative — then `io.ReadFull` that many bytes
and `Discard(2)` the trailing CRLF. -/
def readString (input : List Char) : PRes String :=
  match readLine input with
  | .err e => .err e
  | .panic m => .panic m
  | .ok line rest =>
    match line with
    | [] => .err .invalidSyntax
    | c :: t =>
      if c ≠ '$' then .err .invalidSyntax
      else
        match parseInt t with
        | .error e => .err e
        | .ok length =>
          if length < 0 then .panic "makeslice: len out of range"
          else
            let n := length.toNat
            if rest.length < n then .err .eof
            else
              let buf := rest.take n
              let rest1 := rest.drop n
              if rest1.length < 2 then .err .eof
              else .ok (String.mk buf) (rest1.drop 2)

/-- `RespProtocolParser.readCommandArgs`: read `count` bulk strings in order
(the Go loop `for i := 0; i < length; i++` runs `max length 0` times). -/
def readArgsLoop : Nat → List Char → PRes (List String)
  | 0, input => .ok [] input
  | k + 1, input =>
    match readString input with
    | .err e => .err e
    | .panic m => .panic m
    | .ok s rest =>
      match readArgsLoop k rest with
      | .err e => .err e
      | .panic m => .panic m
      | .ok ss rest' => .ok (s :: ss) rest'

/-- `RespProtocolParser.Parse`: read the array length, reject length `0` with
`ErrInvalidSyntax`, then read the command name and `length - 1` arguments. -/
def respParse (input : List Char) : PRes (String × List String) :=
  match readArrayLength input with
  | .err e => .err e
  | .panic m => .panic m
  | .ok length rest =>
    if length = 0 then .err .invalidSyntax
    else
      match readString rest with
      | .err e => .err e
      | .panic m => .panic m
      | .ok name rest1 =>
        match readArgsLoop (length - 1).toNat rest1 with
        | .err e => .err e
        | .panic m => .panic m
        | .ok args rest2 => .ok (name, args) rest2

/-! ## RESP response encoding (`protocolBuilder`) -/

/-- The number of bytes of a string (Go's `len(s)` on a UTF-8 string). -/
def goStrLen (s : String) : Nat := s.utf8ByteSize

/-- `protocolBuilder.WriteString`: `"$" + itoa(len(s)) + CRLF + s + CRLF`. -/
def buildString (s : String) : String :=
  "$" ++ toString (goStrLen s) ++ "\r\n" ++ s ++ "\r\n"

/-- `protocolBuilder.WriteInt64`: `":" + FormatInt(i, 10) + CRLF`. -/
def buildInt64 (i : Int) : String :=
  ":" ++ toString i ++ "\r\n"

/-- `protocolBuilder.WriteError`: `"-" + err.Error() + CRLF`. -/
def buildError (msg : String) : String :=
  "-" ++ msg ++ "\r\n"

/-- `protocolBuilder.WriteStatus`: `"+" + s + CRLF`. -/
def buildStatus (s : String) : String :=
  "+" ++ s ++ "\r\n"

/-- `protocolBuilder.WriteArray`: `WriteInt64(len(a))` followed by
`WriteString` for each element, in order. -/
def buildArray (a : List String) : String :=
  buildInt64 (a.length : Int) ++ String.join (a.map buildString)

/-- Modelled from the spec: the array encoding the specification describes,
`*<count>\r\n` followed by one bulk-string frame per element.  Kept separate
from `buildArray` (the source's encoder) so the two can be compared. -/
def specArrayEncoding (a : List String) : String :=
  "*" ++ toString a.length ++ "\r\n" ++ String.join (a.map buildString)

/-! ## Per-connection error dispatch (`Server.serveConn`) -/

/-- What the `serveConn` loop does after `connContext.serve` returns an
error. -/
inductive ConnAction where
  | closeConn
  | replyErrorAndContinue
deriving DecidableEq, Repr

/-- The error dispatch in `Server.serveConn`: `errors.Is(err, ErrQuit)`
returns from the handler (closing the connection via the deferred `Close`);
every other error is written back with `WriteError` and the `for` loop
continues reading from the connection. -/
def serveConnOnError (e : GoErr) : ConnAction :=
  if e = .errQuit then .closeConn else .replyErrorAndContinue

/-! ## Commands and the registry (`commands.go`) -/

/-- The constructed command values (the concrete `Command` implementations of
`commands.go`, carrying their `args`).  `QuitCommand` stores no arguments
(`Args()` returns `nil`). -/
inductive Cmd where
  | ping (args : List String)
  | echo (args : List String)
  | push (args : List String)
  | pop (args : List String)
  | length (args : List String)
  | quit
deriving DecidableEq, Repr

/-- `NewPingCommand`: rejects more than one argument. -/
def NewPingCommand (args : List String) : Except GoErr Cmd :=
  if args.length > 1 then .error (.wrongNumberOfArgs "ping") else .ok (.ping args)

/-- `NewEchoCommand`: requires exactly one argument. -/
def NewEchoCommand (args : List String) : Except GoErr Cmd :=
  if args.length ≠ 1 then .error (.wrongNumberOfArgs "echo") else .ok (.echo args)

/-- `NewPushCommand`: requires exactly three arguments. -/
def NewPushCommand (args : List String) : Except GoErr Cmd :=
  if args.length ≠ 3 then .error (.wrongNumberOfArgs "push") else .ok (.push args)

/-- `NewPopCommand`: requires exactly one argument. -/
def NewPopCommand (args : List String) : Except GoErr Cmd :=
  if args.length ≠ 1 then .error (.wrongNumberOfArgs "pop") else .ok (.pop args)

/-- `NewLengthCommand`: requires exactly one argument. -/
def NewLengthCommand (args : List String) : Except GoErr Cmd :=
  if args.length ≠ 1 then .error (.wrongNumberOfArgs "length") else .ok (.length args)

/-- `NewQuitCommand`: requires exactly zero arguments. -/
def NewQuitCommand (args : List String) : Except GoErr Cmd :=
  if args.length ≠ 0 then .error (.wrongNumberOfArgs "quit") else .ok .quit

/-- `commandLibraries` exactly as populated by `init` in `commands.go`:
the six registrations, and no other.  (`CommandCommand` is declared in
`commands.go` but `init` registers no constructor for it.) -/
def commandLibraries : List (String × (List String → Except GoErr Cmd)) :=
  [("ping", NewPingCommand),
   ("echo", NewEchoCommand),
   ("push", NewPushCommand),
   ("pop", NewPopCommand),
   ("length", NewLengthCommand),
   ("quit", NewQuitCommand)]

/-- The registry lookup and construction step of `CommandParser.ReadFrom`
(after `cmd = strings.ToLower(cmd)`; `name` here is the lowercased command
name): an unregistered name is `wrongCommandError`, otherwise the registered
constructor runs on the arguments. -/
def resolveCommand (name : String) (args : List String) : Except GoErr Cmd :=
  match commandLibraries.lookup name with
  | none => .error (.wrongCommand name args)
  | some ctor => ctor args

/-- `CommandCommand.Execute` with zero arguments enumerates the names in
`commandLibraries` (Go map iteration order is arbitrary; the model uses the
registration order). -/
def commandCommandNames : List String := commandLibraries.map Prod.fst

/-! ## The routed queue (`PriorityQueueWithRouting`) -/

/-- Which mutex a `sync.Cond` is associated with: `pq.queueLock` (the lock
guarding `queueMap`) or a freshly allocated `sync.Mutex`. -/
inductive LockRef where
  | queueLock
  | freshMutex
deriving DecidableEq, Repr

/-- The state of a `PriorityQueueWithRouting`: the per-route heaps
(`queueMap`; `none` for a route that was never created) and, for each route,
which lock the route's `notEmpty` condition variable was created with. -/
structure QState where
  queueMap : String → Option (List Item)
  notEmptyLock : String → Option LockRef

/-- `NewPriorityQueueWithRouting`: both maps start empty. -/
def initQState : QState := ⟨fun _ => none, fun _ => none⟩

/-- Update one key of a string-keyed map. -/
def mapSet {α : Type} (f : String → Option α) (k : String) (v : α) :
    String → Option α :=
  fun k' => if k' = k then some v else f k'

/-- `PriorityQueueWithRouting.Enqueue`: create the route's heap if absent
(`heap.Init` on a fresh empty queue is a no-op), `heap.Push` the item, and
create the route's condition variable with `sync.NewCond(&pq.queueLock)` if
absent; `Broadcast` has no effect on this state. -/
def enqueueOp (s : QState) (route : String) (it : Item) : QState :=
  let q := (s.queueMap route).getD []
  let s1 : QState := { s with queueMap := mapSet s.queueMap route (heapPush q it) }
  match s1.notEmptyLock route with
  | some _ => s1
  | none => { s1 with notEmptyLock := mapSet s1.notEmptyLock route .queueLock }

/-- The non-blocking path of `PriorityQueueWithRouting.Dequeue`: when the
route's queue exists and is non-empty, `heap.Pop` it and return the item.
`none` means the call would take the blocking path instead. -/
def dequeueStep (s : QState) (route : String) : Option (Item × QState) :=
  match s.queueMap route with
  | none => none
  | some q =>
    match heapPop q with
    | none => none
    | some (it, q') =>
      some (it, { s with queueMap := mapSet s.queueMap route q' })

/-- The blocking path of `PriorityQueueWithRouting.Dequeue`: when the route's
queue is missing or empty and the route has no condition variable yet, the
code creates one with `sync.NewCond(&sync.Mutex{})` — a freshly allocated
mutex — stores it in `notEmpty[route]`, and waits on it. -/
def dequeueBlockedSetup (s : QState) (route : String) : QState :=
  match s.notEmptyLock route with
  | some _ => s
  | none => { s with notEmptyLock := mapSet s.notEmptyLock route .freshMutex }

/-- `PriorityQueueWithRouting.Length`: `0` for an absent route, otherwise the
heap's length. -/
def lengthOp (s : QState) (route : String) : Nat :=
  match s.queueMap route with
  | none => 0
  | some q => q.length

/-- Enqueue a list of items on one route, in order. -/
def enqueueAll (s : QState) (route : String) (items : List Item) : QState :=
  items.foldl (fun s it => enqueueOp s route it) s

/-- Run the non-blocking `Dequeue` path `j` times on one route (stopping if a
call would block). -/
def dequeueN (s : QState) (route : String) : Nat → QState
  | 0 => s
  | j + 1 =>
    match dequeueStep s route with
    | some (_, s') => dequeueN s' route j
    | none => s

/-- Run the non-blocking `Dequeue` path `j` times on one route, collecting the
returned items in order. -/
def popOutputs (s : QState) (route : String) : Nat → List Item
  | 0 => []
  | j + 1 =>
    match dequeueStep s route with
    | some (it, s') => it :: popOutputs s' route j
    | none => []

/-! ## Command execution (`Execute` methods of `commands.go`) -/

/-- A reply frame written by a command. -/
inductive Reply where
  | status (s : String)
  | bulk (s : String)
  | int (i : Int)
  | array (a : List String)
  | errReply (e : GoErr)
  | rawCRLF
deriving DecidableEq, Repr

/-- `strconv.ParseInt(score, 10, 64)` as used by `PushCommand.Execute`. -/
def strconvParseInt64 (s : String) : Except GoErr Int := goAtoi s.data

/-- The `Execute` methods: given a constructed command and the routed queue,
produce the reply (`some (.ok r)` a normal reply, `some (.error e)` an error
returned to `serveConn`, `none` a `pop` that blocks) and the next queue
state.  `PingCommand`/`EchoCommand` report a wrong argument count by writing
an error reply themselves (`writer.WriteError`) and returning `nil`;
`PushCommand`/`PopCommand`/`LengthCommand`/`QuitCommand` return the error. -/
def execCommand (c : Cmd) (s : QState) :
    Option (Except GoErr Reply) × QState :=
  match c with
  | .ping args =>
    if args.length = 0 then (some (.ok (.status "PONG")), s)
    else if args.length = 1 then (some (.ok (.bulk (args.getD 0 ""))), s)
    else (some (.ok (.errReply (.wrongNumberOfArgs "ping"))), s)
  | .echo args =>
    if args.length = 1 then (some (.ok (.bulk (args.getD 0 ""))), s)
    else (some (.ok (.errReply (.wrongNumberOfArgs "echo"))), s)
  | .push args =>
    if args.length ≠ 3 then (some (.error (.wrongNumberOfArgs "push")), s)
    else
      let key := args.getD 0 ""
      let value := args.getD 1 ""
      let score := args.getD 2 ""
      match strconvParseInt64 score with
      | .error e => (some (.error e), s)
      | .ok priority =>
        (some (.ok (.status "OK")), enqueueOp s key ⟨value, priority, 0⟩)
  | .pop args =>
    if args.length ≠ 1 then (some (.error (.wrongNumberOfArgs "pop")), s)
    else
      let key := args.getD 0 ""
      match dequeueStep s key with
      | some (it, s') => (some (.ok (.bulk it.value)), s')
      | none => (none, s)
  | .length args =>
    if args.length ≠ 1 then (some (.error (.wrongNumberOfArgs "length")), s)
    else (some (.ok (.int (lengthOp s (args.getD 0 "")))), s)
  | .quit => (some (.error .errQuit), s)

/-- One request, from the (lowercased) name and arguments to the outcome:
construction via the registry (`CommandParser.ReadFrom`), then `Execute`.
A failed construction produces the error with the state untouched. -/
def handleRequest (name : String) (args : List String) (s : QState) :
    Option (Except GoErr Reply) × QState :=
  match resolveCommand name args with
  | .error e => (some (.error e), s)
  | .ok c => execCommand c s

/-- An outcome that carries an error: either `Execute` (or construction)
returned a non-nil error, or the command wrote an error reply itself. -/
def isErrorOutcome : Option (Except GoErr Reply) → Bool
  | some (.error _) => true
  | some (.ok (.errReply _)) => true
  | _ => false

/-! ## Heap lemmas: indexing and swapping -/

theorem Item.priority_setIndex (x : Item) (n : Int) :
    ({ x with index := n } : Item).priority = x.priority := rfl

theorem Item.key_setIndex (x : Item) (n : Int) :
    ({ x with index := n } : Item).key = x.key := rfl

theorem nth_eq_getElem {l : List Item} {k : Nat} (h : k < l.length) :
    nth l k = l[k] := by
  simp [nth, List.getD_eq_getElem?_getD, List.getElem?_eq_getElem h]

theorem pqSwap_length (l : List Item) (i j : Nat) :
    (pqSwap l i j).length = l.length := by
  simp [pqSwap]

theorem nth_pqSwap_snd {l : List Item} {i j : Nat} (hj : j < l.length) :
    nth (pqSwap l i j) j = { nth l i with index := (j : Int) } := by
  simp [pqSwap, nth, List.getD_eq_getElem?_getD, List.getElem?_set, hj]

theorem nth_pqSwap_fst {l : List Item} {i j : Nat} (hi : i < l.length)
    (hij : i ≠ j) : nth (pqSwap l i j) i = { nth l j with index := (i : Int) } := by
  simp [pqSwap, nth, List.getD_eq_getElem?_getD, List.getElem?_set,
    Ne.symm hij, hi]

theorem nth_pqSwap_other {l : List Item} {i j k : Nat} (hki : k ≠ i)
    (hkj : k ≠ j) : nth (pqSwap l i j) k = nth l k := by
  simp [pqSwap, nth, List.getD_eq_getElem?_getD, List.getElem?_set,
    Ne.symm hki, Ne.symm hkj]

/-- Pulling the `k`-th element of a list to the front while writing `x` in its
place is a permutation of putting `x` at the front. -/
theorem perm_cons_set {α : Type} (t : List α) (k : Nat) (hk : k < t.length)
    (x : α) : (t[k] :: t.set k x).Perm (x :: t) := by
  induction t generalizing k with
  | nil => simp at hk
  | cons y t ih =>
    cases k with
    | zero => simpa using List.Perm.swap x y t
    | succ k =>
      have hk' : k < t.length := by simpa using hk
      have h1 : ((y :: t)[k + 1] :: (y :: t).set (k + 1) x)
          = t[k] :: y :: t.set k x := by simp
      rw [h1]
      exact (List.Perm.swap y (t[k]) (t.set k x)).trans
        ((List.Perm.cons y (ih k hk')).trans (List.Perm.swap x y t))

/-- Exchanging two positions of a list is a permutation. -/
theorem perm_set_set {α : Type} (l : List α) (i j : Nat) (hi : i < l.length)
    (hj : j < l.length) : ((l.set i l[j]).set j l[i]).Perm l := by
  induction l generalizing i j with
  | nil => simp at hi
  | cons y t ih =>
    match i, j with
    | 0, 0 => simp
    | 0, j + 1 =>
      have hj' : j < t.length := by simpa using hj
      have h1 : ((y :: t).set 0 (y :: t)[j + 1]).set (j + 1) (y :: t)[0]
          = t[j] :: t.set j y := by simp
      rw [h1]
      exact perm_cons_set t j hj' y
    | i + 1, 0 =>
      have hi' : i < t.length := by simpa using hi
      have h1 : ((y :: t).set (i + 1) (y :: t)[0]).set 0 (y :: t)[i + 1]
          = t[i] :: t.set i y := by simp
      rw [h1]
      exact perm_cons_set t i hi' y
    | i + 1, j + 1 =>
      have hi' : i < t.length := by simpa using hi
      have hj' : j < t.length := by simpa using hj
      have h1 : ((y :: t).set (i + 1) (y :: t)[j + 1]).set (j + 1) (y :: t)[i + 1]
          = y :: ((t.set i t[j]).set j t[i]) := by simp
      rw [h1]
      exact List.Perm.cons y (ih i j hi' hj')

/-- The key multiset (value–priority pairs) of the queue. -/
def keyList (l : List Item) : List (String × Int) := l.map Item.key

theorem keyList_length (l : List Item) : (keyList l).length = l.length := by
  simp [keyList]

theorem keyList_pqSwap_perm {l : List Item} {i j : Nat} (hi : i < l.length)
    (hj : j < l.length) : (keyList (pqSwap l i j)).Perm (keyList l) := by
  have hi' : i < (keyList l).length := by simpa [keyList] using hi
  have hj' : j < (keyList l).length := by simpa [keyList] using hj
  have hmap : keyList (pqSwap l i j)
      = ((keyList l).set i (keyList l)[j]).set j (keyList l)[i] := by
    simp [keyList, pqSwap, List.map_set, Item.key_setIndex, nth,
      List.getD_eq_getElem?_getD, List.getElem?_eq_getElem hi,
      List.getElem?_eq_getElem hj, Item.key]
  rw [hmap]
  exact perm_set_set (keyList l) i j hi' hj'

/-! ## Heap lemmas: the sift loops -/

theorem heapUpGo_length (fuel : Nat) (l : List Item) (j : Nat) :
    (heapUpGo fuel l j).length = l.length := by
  induction fuel generalizing l j with
  | zero => cases j <;> rfl
  | succ fuel ih =>
    cases j with
    | zero => rfl
    | succ j =>
      rw [heapUpGo]
      split
      · rw [ih, pqSwap_length]
      · rfl

theorem heapUpGo_keyPerm (fuel : Nat) (l : List Item) (j : Nat)
    (hj : j < l.length) : (keyList (heapUpGo fuel l j)).Perm (keyList l) := by
  induction fuel generalizing l j with
  | zero => cases j <;> exact List.Perm.refl _
  | succ fuel ih =>
    cases j with
    | zero => exact List.Perm.refl _
    | succ j =>
      rw [heapUpGo]
      split
      · have hp : parentIdx (j + 1) < l.length :=
          lt_of_le_of_lt (by simp [parentIdx]; omega) hj
        have hj' : parentIdx (j + 1) < (pqSwap l (parentIdx (j + 1)) (j + 1)).length := by
          rw [pqSwap_length]; exact hp
        exact (ih _ _ hj').trans (keyList_pqSwap_perm hp hj)
      · exact List.Perm.refl _

theorem childSel_lt {l : List Item} {i n : Nat} (h : 2 * i + 1 < n) :
    childSel l i n < n := by
  rw [childSel]
  split
  case isTrue hb => simpa using (Bool.and_eq_true_iff.mp hb).1
  case isFalse => simpa using h

theorem childSel_gt (l : List Item) (i n : Nat) : i < childSel l i n := by
  rw [childSel]; split <;> omega

theorem parentIdx_childSel (l : List Item) (i n : Nat) :
    parentIdx (childSel l i n) = i := by
  rw [childSel]; split <;> (simp only [parentIdx]; omega)

/-- The selected child has the greatest priority among the in-range children
of `i`. -/
theorem childSel_max {l : List Item} {i n k : Nat} (hk : k < n)
    (hpk : parentIdx k = i) (hk1 : 1 ≤ k) :
    (nth l k).priority ≤ (nth l (childSel l i n)).priority := by
  have hk' : k = 2 * i + 1 ∨ k = 2 * i + 1 + 1 := by
    simp [parentIdx] at hpk; omega
  rw [childSel]
  split
  case isTrue hb =>
    have hless : pqLess (nth l (2 * i + 1 + 1)) (nth l (2 * i + 1)) = true :=
      (Bool.and_eq_true_iff.mp hb).2
    have : (nth l (2 * i + 1)).priority < (nth l (2 * i + 1 + 1)).priority := by
      simpa [pqLess] using hless
    rcases hk' with rfl | rfl
    · omega
    · omega
  case isFalse hb =>
    rcases hk' with rfl | rfl
    · omega
    · have h2 : 2 * i + 1 + 1 < n := by omega
      have : ¬ (nth l (2 * i + 1)).priority < (nth l (2 * i + 1 + 1)).priority := by
        have := (Bool.and_eq_true_iff.not.mp hb)
        simp [h2, pqLess] at this
        omega
      omega

theorem heapDownGo_length (fuel : Nat) (l : List Item) (i n : Nat) :
    (heapDownGo fuel l i n).length = l.length := by
  induction fuel generalizing l i with
  | zero => rfl
  | succ fuel ih =>
    rw [heapDownGo]
    split
    · split
      · rw [ih, pqSwap_length]
      · rfl
    · rfl

theorem heapDownGo_keyPerm (fuel : Nat) (l : List Item) (i n : Nat)
    (hn : n ≤ l.length) : (keyList (heapDownGo fuel l i n)).Perm (keyList l) := by
  induction fuel generalizing l i with
  | zero => exact List.Perm.refl _
  | succ fuel ih =>
    rw [heapDownGo]
    split
    case isTrue h1 =>
      split
      case isTrue h2 =>
        have hjn : childSel l i n < n := childSel_lt h1
        have hin : i < n := by omega
        have hswap := keyList_pqSwap_perm (lt_of_lt_of_le hin hn)
          (lt_of_lt_of_le hjn hn)
        have hn' : n ≤ (pqSwap l i (childSel l i n)).length := by
          rw [pqSwap_length]; exact hn
        exact (ih _ _ hn').trans hswap
      case isFalse => exact List.Perm.refl _
    case isFalse => exact List.Perm.refl _

theorem heapDownGo_nth_ge (fuel : Nat) (l : List Item) (i n k : Nat)
    (hk : n ≤ k) : nth (heapDownGo fuel l i n) k = nth l k := by
  induction fuel generalizing l i with
  | zero => rfl
  | succ fuel ih =>
    rw [heapDownGo]
    split
    case isTrue h1 =>
      split
      case isTrue h2 =>
        have hjn : childSel l i n < n := childSel_lt h1
        have hin : i < n := by omega
        rw [ih, nth_pqSwap_other (by omega) (by omega)]
      case isFalse => rfl
    case isFalse => rfl

/-! ## Heap lemmas: the heap invariant -/

/-- The max-heap invariant of `container/heap` restricted to the prefix of
length `n`: every child's priority is at most its parent's (this is
`!Less(j, i)` for every edge, with `Less` comparing priorities with `>`). -/
def IsHeapN (l : List Item) (n : Nat) : Prop :=
  ∀ k, 1 ≤ k → k < n → (nth l k).priority ≤ (nth l (parentIdx k)).priority

/-- The max-heap invariant of the whole queue. -/
def IsHeap (l : List Item) : Prop := IsHeapN l l.length

theorem parentIdx_lt {k : Nat} (hk : 1 ≤ k) : parentIdx k < k := by
  simp only [parentIdx]; omega

theorem parentIdx_le (k : Nat) : parentIdx k ≤ k := by
  simp only [parentIdx]; omega

/-- Sift-up restores the heap invariant: if every edge except possibly the
one into `j` is ordered, and the children of `j` already fit below `j`'s
parent, then `up` yields a heap. -/
theorem heapUpGo_isHeap (fuel : Nat) (l : List Item) (j : Nat)
    (hfuel : j ≤ fuel) (hj : j < l.length)
    (h1 : ∀ k, 1 ≤ k → k < l.length → k ≠ j →
      (nth l k).priority ≤ (nth l (parentIdx k)).priority)
    (h2 : 0 < j → ∀ k, 1 ≤ k → k < l.length → parentIdx k = j →
      (nth l k).priority ≤ (nth l (parentIdx j)).priority) :
    IsHeap (heapUpGo fuel l j) := by
  induction fuel generalizing l j with
  | zero =>
    have hj0 : j = 0 := by omega
    subst hj0
    exact fun k hk1 hk2 => h1 k hk1 (by simpa [heapUpGo] using hk2) (by omega)
  | succ fuel ih =>
    cases j with
    | zero =>
      exact fun k hk1 hk2 => h1 k hk1 (by simpa [heapUpGo] using hk2) (by omega)
    | succ j =>
      rw [heapUpGo]
      split
      case isTrue hless =>
        have hpij : parentIdx (j + 1) ≠ j + 1 := by
          have := parentIdx_lt (k := j + 1) (by omega); omega
        have hpil : parentIdx (j + 1) < l.length :=
          lt_of_le_of_lt (parentIdx_le (j + 1)) hj
        have hless' : (nth l (parentIdx (j + 1))).priority
            < (nth l (j + 1)).priority := by simpa [pqLess] using hless
        apply ih (pqSwap l (parentIdx (j + 1)) (j + 1)) (parentIdx (j + 1))
        · have := parentIdx_le (j + 1)
          have := parentIdx_lt (k := j + 1) (by omega)
          omega
        · rwa [pqSwap_length]
        · -- every edge except the one into the new hole is ordered
          intro k hk1 hklen' hkpi
          have hklen : k < l.length := by rwa [pqSwap_length] at hklen'
          by_cases hkj : k = j + 1
          · subst hkj
            rw [nth_pqSwap_snd hj, nth_pqSwap_fst hpil hpij]
            simpa [Item.priority_setIndex] using hless'.le
          · by_cases hpk_eq : parentIdx k = j + 1
            · rw [nth_pqSwap_other hkpi hkj, hpk_eq, nth_pqSwap_snd hj]
              simpa [Item.priority_setIndex] using
                h2 (by omega) k hk1 hklen hpk_eq
            · by_cases hpk_pi : parentIdx k = parentIdx (j + 1)
              · rw [nth_pqSwap_other hkpi hkj, hpk_pi, nth_pqSwap_fst hpil hpij]
                have hle := h1 k hk1 hklen hkj
                rw [hpk_pi] at hle
                simpa [Item.priority_setIndex] using hle.trans hless'.le
              · rw [nth_pqSwap_other hkpi hkj, nth_pqSwap_other hpk_pi hpk_eq]
                exact h1 k hk1 hklen hkj
        · -- the children of the new hole fit below its parent
          intro hpi0 k hk1 hklen' hpk
          have hklen : k < l.length := by rwa [pqSwap_length] at hklen'
          have hppi_lt : parentIdx (parentIdx (j + 1)) < parentIdx (j + 1) :=
            parentIdx_lt hpi0
          have hppi_ne_pi : parentIdx (parentIdx (j + 1)) ≠ parentIdx (j + 1) := by
            omega
          have hppi_ne_j : parentIdx (parentIdx (j + 1)) ≠ j + 1 := by
            have := parentIdx_le (j + 1); omega
          have htop := h1 (parentIdx (j + 1)) hpi0 hpil hpij
          rw [nth_pqSwap_other hppi_ne_pi hppi_ne_j]
          by_cases hkj : k = j + 1
          · subst hkj
            rw [nth_pqSwap_snd hj]
            simpa [Item.priority_setIndex] using htop
          · have hkpi : k ≠ parentIdx (j + 1) := by
              have := parentIdx_lt (k := k) hk1; omega
            rw [nth_pqSwap_other hkpi hkj]
            have hle := h1 k hk1 hklen hkj
            rw [hpk] at hle
            exact hle.trans htop
      case isFalse hless =>
        intro k hk1 hk2
        by_cases hkj : k = j + 1
        · subst hkj
          have : ¬ (nth l (parentIdx (j + 1))).priority
              < (nth l (j + 1)).priority := by simpa [pqLess] using hless
          omega
        · exact h1 k hk1 hk2 hkj

/-- Sift-down restores the heap invariant on the prefix of length `n`: if
every edge except those out of `i` is ordered, and the children of `i` fit
below `i`'s parent, then `down` yields a heap on that prefix. -/
theorem heapDownGo_isHeapN (fuel : Nat) (l : List Item) (i n : Nat)
    (hfuel : n - i ≤ fuel) (hn : n ≤ l.length)
    (h1 : ∀ k, 1 ≤ k → k < n → parentIdx k ≠ i →
      (nth l k).priority ≤ (nth l (parentIdx k)).priority)
    (h2 : 0 < i → ∀ k, 1 ≤ k → k < n → parentIdx k = i →
      (nth l k).priority ≤ (nth l (parentIdx i)).priority) :
    IsHeapN (heapDownGo fuel l i n) n := by
  induction fuel generalizing l i with
  | zero =>
    intro k hk1 hkn
    have hpik : parentIdx k < k := parentIdx_lt hk1
    exact h1 k hk1 hkn (by omega)
  | succ fuel ih =>
    rw [heapDownGo]
    split
    case isTrue hcond =>
      split
      case isTrue hless =>
        have hcn : childSel l i n < n := childSel_lt hcond
        have hic : i < childSel l i n := childSel_gt l i n
        have hpc : parentIdx (childSel l i n) = i := parentIdx_childSel l i n
        have hcl : childSel l i n < l.length := lt_of_lt_of_le hcn hn
        have hil : i < l.length := by omega
        have hine : i ≠ childSel l i n := by omega
        have hless' : (nth l i).priority
            < (nth l (childSel l i n)).priority := by simpa [pqLess] using hless
        apply ih (pqSwap l i (childSel l i n)) (childSel l i n)
        · omega
        · rwa [pqSwap_length]
        · intro k hk1 hkn hkpc
          by_cases hkc : k = childSel l i n
          · subst hkc
            rw [nth_pqSwap_snd hcl, hpc, nth_pqSwap_fst hil hine]
            simpa [Item.priority_setIndex] using hless'.le
          · by_cases hki : k = i
            · subst hki
              have hk_pos : 0 < k := hk1
              have hpik : parentIdx k < k := parentIdx_lt hk1
              have hp_ne_i : parentIdx k ≠ k := by omega
              have hp_ne_c : parentIdx k ≠ childSel l k n := by omega
              rw [nth_pqSwap_fst hil hine, nth_pqSwap_other hp_ne_i hp_ne_c]
              simpa [Item.priority_setIndex] using
                h2 hk_pos (childSel l k n) (by omega) hcn hpc
            · by_cases hpki : parentIdx k = i
              · rw [nth_pqSwap_other hki hkc, hpki, nth_pqSwap_fst hil hine]
                simpa [Item.priority_setIndex] using childSel_max hkn hpki hk1
              · rw [nth_pqSwap_other hki hkc, nth_pqSwap_other hpki hkpc]
                exact h1 k hk1 hkn hpki
        · intro hc0 k hk1 hkn hpkc
          have hkbig : childSel l i n < k := by
            have := parentIdx_lt hk1; omega
          have hki : k ≠ i := by omega
          have hkc : k ≠ childSel l i n := by omega
          rw [hpc, nth_pqSwap_fst hil hine, nth_pqSwap_other hki hkc]
          have hle := h1 k hk1 hkn (by omega)
          rw [hpkc] at hle
          simpa [Item.priority_setIndex] using hle
      case isFalse hless =>
        intro k hk1 hkn
        by_cases hpki : parentIdx k = i
        · have hcs := childSel_max (l := l) hkn hpki hk1
          have : ¬ (nth l i).priority
              < (nth l (childSel l i n)).priority := by simpa [pqLess] using hless
          rw [hpki]
          omega
        · exact h1 k hk1 hkn hpki
    case isFalse hcond =>
      intro k hk1 hkn
      by_cases hpki : parentIdx k = i
      · exfalso
        simp only [parentIdx] at hpki
        omega
      · exact h1 k hk1 hkn hpki

/-- In a heap prefix, the root has the greatest priority. -/
theorem isHeapN_le_root {l : List Item} {n : Nat} (h : IsHeapN l n) :
    ∀ k, k < n → (nth l k).priority ≤ (nth l 0).priority := by
  intro k
  induction k using Nat.strong_induction_on with
  | _ k ih =>
    intro hk
    rcases Nat.eq_zero_or_pos k with h0 | h1
    · subst h0; exact le_refl _
    · exact (h k h1 hk).trans
        (ih (parentIdx k) (parentIdx_lt h1) (lt_trans (parentIdx_lt h1) hk))

/-! ## Heap lemmas: `Push` and `Pop` -/

theorem pqPush_length (l : List Item) (x : Item) :
    (pqPush l x).length = l.length + 1 := by simp [pqPush]

theorem nth_pqPush_lt {l : List Item} {x : Item} {k : Nat} (h : k < l.length) :
    nth (pqPush l x) k = nth l k := by
  simp [pqPush, nth, List.getD_eq_getElem?_getD, List.getElem?_append, h]

theorem nth_take {l : List Item} {k n : Nat} (h : k < n) :
    nth (l.take n) k = nth l k := by
  simp [nth, List.getD_eq_getElem?_getD, List.getElem?_take, h]

theorem heapPush_length (l : List Item) (x : Item) :
    (heapPush l x).length = l.length + 1 := by
  rw [heapPush, heapUp, heapUpGo_length, pqPush_length]

theorem heapPush_isHeap {l : List Item} (h : IsHeap l) (x : Item) :
    IsHeap (heapPush l x) := by
  rw [heapPush, heapUp, pqPush_length]
  apply heapUpGo_isHeap
  · omega
  · rw [pqPush_length]; omega
  · intro k hk1 hklen hkj
    rw [pqPush_length] at hklen
    have hk : k < l.length := by omega
    have hpk : parentIdx k < l.length := lt_of_lt_of_le (parentIdx_lt hk1) hk.le
    rw [nth_pqPush_lt hk, nth_pqPush_lt hpk]
    exact h k hk1 hk
  · intro h0 k hk1 hklen hpk
    exfalso
    rw [pqPush_length] at hklen
    simp only [parentIdx] at hpk
    omega

theorem heapPush_keyPerm (l : List Item) (x : Item) :
    (keyList (heapPush l x)).Perm (x.key :: keyList l) := by
  rw [heapPush, heapUp, pqPush_length]
  have h1 : (keyList (heapUpGo (l.length + 1 - 1) (pqPush l x) (l.length + 1 - 1))).Perm
      (keyList (pqPush l x)) := by
    apply heapUpGo_keyPerm
    rw [pqPush_length]; omega
  have h2 : keyList (pqPush l x) = keyList l ++ [x.key] := by
    simp [keyList, pqPush, Item.key]
  exact h1.trans (h2 ▸ List.perm_append_singleton x.key (keyList l))

/-- Unfolding of `heapPop` on a non-empty queue. -/
theorem heapPop_eq {l : List Item} (hne : l.length ≠ 0) :
    heapPop l = some (pqPopLast (heapDown (pqSwap l 0 (l.length - 1)) 0 (l.length - 1))) := by
  rw [heapPop, if_neg hne]

/-- The specification of `heap.Pop` on a heap: it returns the root (a maximum
priority item), the remainder is one shorter, is again a heap, and together
with the returned item carries the same key multiset. -/
theorem heapPop_spec {l : List Item} (hh : IsHeap l) (hne : l ≠ []) :
    ∃ it rest, heapPop l = some (it, rest) ∧
      rest.length = l.length - 1 ∧ IsHeap rest ∧
      (keyList l).Perm (it.key :: keyList rest) ∧
      ∀ x ∈ l, x.priority ≤ it.priority := by
  have hlen0 : l.length ≠ 0 := fun h => hne (List.length_eq_zero.mp h)
  have hnlt : l.length - 1 < l.length := by omega
  have hl1len : (pqSwap l 0 (l.length - 1)).length = l.length := pqSwap_length l 0 _
  obtain ⟨l2, hl2⟩ : ∃ l2, heapDown (pqSwap l 0 (l.length - 1)) 0 (l.length - 1) = l2 :=
    ⟨_, rfl⟩
  have hl2len : l2.length = l.length := by
    rw [← hl2, heapDown, heapDownGo_length, hl1len]
  have hpop : heapPop l = some (pqPopLast l2) := by rw [heapPop_eq hlen0, hl2]
  have hfst : (pqPopLast l2).1 = { nth l2 (l.length - 1) with index := -1 } := by
    simp [pqPopLast, hl2len]
  have hsnd : (pqPopLast l2).2 = l2.take (l.length - 1) := by
    simp [pqPopLast, hl2len]
  have hIsN : IsHeapN l2 (l.length - 1) := by
    rw [← hl2, heapDown]
    apply heapDownGo_isHeapN
    · omega
    · omega
    · intro k hk1 hkn hpk0
      have hkl : k < l.length := by omega
      have hkne : k ≠ l.length - 1 := by omega
      have hk0 : k ≠ 0 := by omega
      have hpkn : parentIdx k ≠ l.length - 1 := by
        have := parentIdx_lt hk1; omega
      rw [nth_pqSwap_other hk0 hkne, nth_pqSwap_other hpk0 hpkn]
      exact hh k hk1 hkl
    · intro h0; exact absurd h0 (lt_irrefl 0)
  refine ⟨(pqPopLast l2).1, (pqPopLast l2).2, ?_, ?_, ?_, ?_, ?_⟩
  · rw [hpop, Prod.mk.eta]
  · rw [hsnd]
    simp only [List.length_take, hl2len]
    omega
  · -- the remainder is a heap
    rw [hsnd]
    intro k hk1 hklen
    simp only [List.length_take, hl2len] at hklen
    have hk' : k < l.length - 1 := by omega
    have hpk' : parentIdx k < l.length - 1 :=
      lt_of_lt_of_le (parentIdx_lt hk1) hk'.le
    rw [nth_take hk', nth_take hpk']
    exact hIsN k hk1 hk'
  · -- key multiset preservation
    have hkey : (pqPopLast l2).1.key = (nth l2 (l.length - 1)).key := by
      rw [hfst]; exact Item.key_setIndex _ _
    rw [hkey, hsnd]
    have hp1 : (keyList (pqSwap l 0 (l.length - 1))).Perm (keyList l) :=
      keyList_pqSwap_perm (by omega) hnlt
    have hp2 : (keyList l2).Perm (keyList (pqSwap l 0 (l.length - 1))) := by
      rw [← hl2, heapDown]
      exact heapDownGo_keyPerm _ _ 0 _ (by omega)
    have hnl2 : l.length - 1 < l2.length := by omega
    have hdrop : l2.drop (l.length - 1) = [l2[l.length - 1]] := by
      rw [List.drop_eq_getElem_cons hnl2]
      have hnil : l2.drop (l.length - 1 + 1) = [] :=
        List.drop_eq_nil_of_le (by omega)
      rw [hnil]
    have hsplit : keyList l2
        = keyList (l2.take (l.length - 1)) ++ [(nth l2 (l.length - 1)).key] := by
      conv_lhs => rw [← List.take_append_drop (l.length - 1) l2]
      rw [keyList, List.map_append, hdrop]
      simp [keyList, nth_eq_getElem hnl2]
    have hstep2 : (keyList l2).Perm
        ((nth l2 (l.length - 1)).key :: keyList (l2.take (l.length - 1))) := by
      rw [hsplit]
      exact List.perm_append_singleton _ _
    exact ((hp2.trans hp1).symm).trans hstep2
  · -- the returned item has maximal priority
    intro x hx
    have hroot : (pqPopLast l2).1.priority = (nth l 0).priority := by
      have h1 : nth l2 (l.length - 1) = nth (pqSwap l 0 (l.length - 1)) (l.length - 1) := by
        rw [← hl2, heapDown]
        exact heapDownGo_nth_ge _ _ 0 _ _ (le_refl _)
      rw [hfst, Item.priority_setIndex, h1, nth_pqSwap_snd hnlt,
        Item.priority_setIndex]
    rw [hroot]
    obtain ⟨k, hk, rfl⟩ := List.getElem_of_mem hx
    rw [← nth_eq_getElem hk]
    exact isHeapN_le_root hh k hk

/-- `Dequeue` repeated `j` times at the heap level, collecting the popped
items in order. -/
def popN : List Item → Nat → List Item
  | _, 0 => []
  | l, j + 1 =>
    match heapPop l with
    | none => []
    | some (it, l') => it :: popN l' j

/-- Draining a heap yields its key multiset in weakly decreasing priority
order. -/
theorem popN_spec : ∀ (m : Nat) (l : List Item), l.length = m → IsHeap l →
    (keyList (popN l m)).Perm (keyList l) ∧
    (popN l m).Pairwise (fun a b => b.priority ≤ a.priority) := by
  intro m
  induction m with
  | zero =>
    intro l hl _
    have : l = [] := List.length_eq_zero.mp hl
    subst this
    simp [popN, keyList]
  | succ m ih =>
    intro l hl hh
    have hne : l ≠ [] := by
      intro h; subst h; simp at hl
    obtain ⟨it, rest, heq, hlen, hheap, hperm, hmax⟩ := heapPop_spec hh hne
    have hstep : popN l (m + 1) = it :: popN rest m := by
      rw [popN, heq]
    have hrl : rest.length = m := by omega
    obtain ⟨ihperm, ihpair⟩ := ih rest hrl hheap
    rw [hstep]
    constructor
    · have h1 : keyList (it :: popN rest m)
          = it.key :: keyList (popN rest m) := by simp [keyList]
      rw [h1]
      exact (List.Perm.cons it.key ihperm).trans hperm.symm
    · rw [List.pairwise_cons]
      refine ⟨?_, ihpair⟩
      intro b hb
      have hbk : b.key ∈ keyList (popN rest m) := List.mem_map_of_mem Item.key hb
      have hbk2 : b.key ∈ keyList rest := ihperm.mem_iff.mp hbk
      have hbk3 : b.key ∈ keyList l :=
        hperm.symm.mem_iff.mp (List.mem_cons_of_mem it.key hbk2)
      obtain ⟨z, hz, hzk⟩ := List.mem_map.mp hbk3
      have hzp : z.priority = b.priority := congrArg Prod.snd hzk
      rw [← hzp]
      exact hmax z hz

/-! ## Routed-queue lemmas -/

/-- The route's heap as a list (`[]` both for an absent route and an empty
queue, matching `heap.Init` on a fresh `&PriorityQueue{}`). -/
def getQ (s : QState) (route : String) : List Item :=
  (s.queueMap route).getD []

theorem enqueueOp_queueMap (s : QState) (route : String) (it : Item) :
    (enqueueOp s route it).queueMap
      = mapSet s.queueMap route (heapPush (getQ s route) it) := by
  simp only [enqueueOp, getQ]
  split <;> rfl

theorem enqueueOp_getQ_self (s : QState) (route : String) (it : Item) :
    getQ (enqueueOp s route it) route = heapPush (getQ s route) it := by
  rw [getQ, enqueueOp_queueMap]
  simp [mapSet]

theorem enqueueAll_getQ (items : List Item) (s : QState) (route : String) :
    getQ (enqueueAll s route items) route = items.foldl heapPush (getQ s route) := by
  induction items generalizing s with
  | nil => rfl
  | cons it rest ih =>
    simp only [enqueueAll, List.foldl_cons] at ih ⊢
    rw [ih, enqueueOp_getQ_self]

theorem heapPop_nil : heapPop [] = none := rfl

theorem heapPop_isSome {q : List Item} (h : q.length ≠ 0) :
    ∃ p, heapPop q = some p := by
  rw [heapPop_eq h]; exact ⟨_, rfl⟩

theorem heapPop_length {q : List Item} {it : Item} {q' : List Item}
    (h : heapPop q = some (it, q')) : q'.length = q.length - 1 := by
  by_cases h0 : q.length = 0
  · rw [heapPop, if_pos h0] at h; exact absurd h (by simp)
  · rw [heapPop_eq h0] at h
    have h2 : (pqPopLast (heapDown (pqSwap q 0 (q.length - 1)) 0 (q.length - 1))).2
        = q' := congrArg Prod.snd (Option.some.inj h)
    have hlen : (heapDown (pqSwap q 0 (q.length - 1)) 0 (q.length - 1)).length
        = q.length := by rw [heapDown, heapDownGo_length, pqSwap_length]
    rw [← h2]
    simp [pqPopLast, List.length_take, hlen]

theorem lengthOp_eq_getQ (s : QState) (route : String) :
    lengthOp s route = (getQ s route).length := by
  cases h : s.queueMap route <;> simp [lengthOp, getQ, h]

theorem dequeueStep_none {s : QState} {route : String}
    (h : (getQ s route).length = 0) : dequeueStep s route = none := by
  cases hq : s.queueMap route with
  | none => simp [dequeueStep, hq]
  | some q =>
    have hq0 : q.length = 0 := by
      rw [getQ, hq] at h
      simpa using h
    simp [dequeueStep, hq, heapPop, hq0]

theorem dequeueStep_some {s : QState} {route : String} {q : List Item}
    (hq : s.queueMap route = some q) {it : Item} {q' : List Item}
    (h : heapPop q = some (it, q')) :
    dequeueStep s route
      = some (it, { s with queueMap := mapSet s.queueMap route q' }) := by
  simp only [dequeueStep, hq, h]

/-- Collecting dequeues at the routed level is draining the route's heap. -/
theorem popOutputs_eq_popN (j : Nat) (s : QState) (route : String) :
    popOutputs s route j = popN (getQ s route) j := by
  induction j generalizing s with
  | zero => rfl
  | succ j ih =>
    cases hq : s.queueMap route with
    | none =>
      have hgq : getQ s route = [] := by rw [getQ, hq]; rfl
      simp [popOutputs, popN, dequeueStep, hq, hgq, heapPop_nil]
    | some q =>
      have hgq : getQ s route = q := by rw [getQ, hq]; rfl
      rw [hgq]
      cases hp : heapPop q with
      | none => simp [popOutputs, popN, dequeueStep, hq, hp]
      | some p =>
        obtain ⟨it, q'⟩ := p
        simp only [popOutputs, popN, dequeueStep_some hq hp, hp]
        rw [ih]
        have hgq' : getQ { s with queueMap := mapSet s.queueMap route q' } route
            = q' := by simp [getQ, mapSet]
        rw [hgq']

/-- `Length` after `j` successful dequeues. -/
theorem dequeueN_length (j : Nat) (s : QState) (route : String)
    (h : j ≤ lengthOp s route) :
    lengthOp (dequeueN s route j) route = lengthOp s route - j := by
  induction j generalizing s with
  | zero => rfl
  | succ j ih =>
    have hq0 : (getQ s route).length ≠ 0 := by
      rw [lengthOp_eq_getQ] at h; omega
    cases hq : s.queueMap route with
    | none =>
      exfalso
      rw [getQ, hq] at hq0
      simp at hq0
    | some q =>
      have hgq : getQ s route = q := by rw [getQ, hq]; rfl
      obtain ⟨⟨it, q'⟩, hp⟩ := heapPop_isSome (by rwa [hgq] at hq0)
      simp only [dequeueN, dequeueStep_some hq hp]
      have hlen' : lengthOp { s with queueMap := mapSet s.queueMap route q' } route
          = lengthOp s route - 1 := by
        rw [lengthOp_eq_getQ, lengthOp_eq_getQ]
        have : getQ { s with queueMap := mapSet s.queueMap route q' } route = q' := by
          simp [getQ, mapSet]
        rw [this, hgq, heapPop_length hp]
      rw [ih _ (by omega), hlen']
      omega

theorem foldl_heapPush_length (items : List Item) (q : List Item) :
    (items.foldl heapPush q).length = q.length + items.length := by
  induction items generalizing q with
  | nil => simp
  | cons it rest ih =>
    simp only [List.foldl_cons, List.length_cons, ih, heapPush_length]
    omega

theorem foldl_heapPush_isHeap (items : List Item) (q : List Item)
    (h : IsHeap q) : IsHeap (items.foldl heapPush q) := by
  induction items generalizing q with
  | nil => exact h
  | cons it rest ih =>
    rw [List.foldl_cons]
    exact ih _ (heapPush_isHeap h it)

theorem isHeap_nil : IsHeap [] := by
  intro k hk1 hk2
  simp at hk2

theorem foldl_heapPush_keyPerm (items : List Item) (q : List Item) :
    (keyList (items.foldl heapPush q)).Perm (items.map Item.key ++ keyList q) := by
  induction items generalizing q with
  | nil => simp
  | cons it rest ih =>
    rw [List.foldl_cons]
    refine (ih (heapPush q it)).trans ?_
    have h1 : (keyList (heapPush q it)).Perm (it.key :: keyList q) :=
      heapPush_keyPerm q it
    refine ((List.Perm.append_left (rest.map Item.key) h1).trans ?_)
    simp only [List.map_cons, List.cons_append]
    exact List.perm_middle

/-! ## Registry resolution helpers -/

theorem resolve_ping (args : List String) :
    resolveCommand "ping" args = NewPingCommand args := rfl

theorem resolve_echo (args : List String) :
    resolveCommand "echo" args = NewEchoCommand args := rfl

theorem resolve_push (args : List String) :
    resolveCommand "push" args = NewPushCommand args := rfl

theorem resolve_pop (args : List String) :
    resolveCommand "pop" args = NewPopCommand args := rfl

theorem resolve_length (args : List String) :
    resolveCommand "length" args = NewLengthCommand args := rfl

theorem resolve_quit (args : List String) :
    resolveCommand "quit" args = NewQuitCommand args := rfl

/-! ## Validation predicates (from the spec's documented arities) -/

/-- A request with a wrong argument count for a built-in command, following
the documented arities: `ping` takes 0 or 1 arguments, `echo` exactly 1,
`push` exactly 3, `pop` exactly 1, `length` exactly 1, `quit` exactly 0. -/
def badAritySpec (name : String) (args : List String) : Prop :=
  (name = "ping" ∧ args.length > 1) ∨
  (name = "echo" ∧ args.length ≠ 1) ∨
  (name = "push" ∧ args.length ≠ 3) ∨
  (name = "pop" ∧ args.length ≠ 1) ∨
  (name = "length" ∧ args.length ≠ 1) ∨
  (name = "quit" ∧ args.length ≠ 0)

/-- A `push` whose third argument (the priority) does not parse as a signed
64-bit integer. -/
def badPushPrioritySpec (name : String) (args : List String) : Prop :=
  name = "push" ∧ args.length = 3 ∧
    ∃ e, strconvParseInt64 (args.getD 2 "") = Except.error e

/-! ## Claim theorems -/

/-- C2 (code bug): on a framing error the spec requires the connection to be
closed, but `serveConn` does not: the stream `"x\r\n"` matches no valid frame
header, so `Parse` fails with `ErrInvalidSyntax`, yet `serveConn`'s dispatch
writes the error reply and continues its read loop instead of closing the
connection. -/
theorem c2_framing_error_does_not_close :
    respParse ['x', '\r', '\n'] = .err .invalidSyntax ∧
    serveConnOnError .invalidSyntax = .replyErrorAndContinue ∧
    ConnAction.replyErrorAndContinue ≠ ConnAction.closeConn :=
  ⟨rfl, rfl, by decide⟩

/-- C3 (code bug): `protocolBuilder.WriteArray` heads the array with the
integer frame `:<count>\r\n` (it calls `WriteInt64`), not the `*<count>\r\n`
frame the spec (and RESP, and the code's own `ArrayReply = '*'` constant)
prescribe: on `["ping"]` the encoder emits `":1\r\n$4\r\nping\r\n"`. -/
theorem c3_writeArray_wrong_header :
    buildArray ["ping"] = ":1\r\n$4\r\nping\r\n" ∧
    specArrayEncoding ["ping"] = "*1\r\n$4\r\nping\r\n" ∧
    buildArray ["ping"] ≠ specArrayEncoding ["ping"] :=
  ⟨rfl, rfl, by decide⟩

/-- C4 (code bug): a non-numeric bulk-string length is indeed returned as an
error, but a negative length reaches `make([]byte, length)`, which panics at
run time — decoding is not total and the process crashes on `"$-1\r\n"`. -/
theorem c4_negative_length_panics :
    readString ("$-1\r\n".data) = .panic "makeslice: len out of range" ∧
    readString ("$abc\r\n".data) = .err (.atoiSyntax "abc") :=
  ⟨rfl, rfl⟩

/-- C5 (code bug): `init` in `commands.go` registers only `ping`, `echo`,
`push`, `pop`, `length` and `quit`; no constructor for `command` is ever
registered, so resolving `command` through the registry yields
`wrongCommandError` instead of running `CommandCommand.Execute` (which is
implemented but unreachable, and would reply with the registered names). -/
theorem c5_command_not_registered :
    commandLibraries.lookup "command" = none ∧
    resolveCommand "command" [] = .error (.wrongCommand "command" []) ∧
    commandCommandNames = ["ping", "echo", "push", "pop", "length", "quit"] :=
  ⟨rfl, rfl, rfl⟩

/-- C6 (code bug): the condition variable a blocked `Dequeue` creates on a
never-used route is `sync.NewCond(&sync.Mutex{})` — associated with a freshly
allocated mutex — while `Enqueue` creates the route's condition variable with
`sync.NewCond(&pq.queueLock)`, the lock guarding the heap.  The wait path
therefore violates the same-lock requirement the claim states. -/
theorem c6_blocked_dequeue_uses_fresh_mutex :
    (dequeueBlockedSetup initQState "jobs").notEmptyLock "jobs"
      = some LockRef.freshMutex ∧
    (enqueueOp initQState "jobs" ⟨"v", 1, 0⟩).notEmptyLock "jobs"
      = some LockRef.queueLock ∧
    LockRef.freshMutex ≠ LockRef.queueLock :=
  ⟨rfl, rfl, by decide⟩

/-- C9 (confirmed): whenever the request frame declares an array length of 0,
`Parse` rejects it with `ErrInvalidSyntax` rather than producing a command
with an empty name. -/
theorem c9_empty_array_invalid_syntax (input rest : List Char)
    (h : readArrayLength input = .ok 0 rest) :
    respParse input = .err .invalidSyntax := by
  simp [respParse, h]

/-- Witness for C9 at the concrete stream `"*0\r\n"`. -/
theorem c9_witness : respParse ("*0\r\n".data) = .err .invalidSyntax :=
  c9_empty_array_invalid_syntax ("*0\r\n".data) [] rfl

/-- C10 (confirmed): an `Enqueue`, and a completed (non-blocking) `Dequeue`,
on route `r` leave the heap of every other route `r'` unchanged. -/
theorem c10_route_isolation (s : QState) (r r' : String) (it : Item)
    (h : r' ≠ r) :
    (enqueueOp s r it).queueMap r' = s.queueMap r' ∧
    ∀ it' s', dequeueStep s r = some (it', s') →
      s'.queueMap r' = s.queueMap r' := by
  constructor
  · rw [enqueueOp_queueMap]
    simp [mapSet, h]
  · intro it' s' hstep
    cases hq : s.queueMap r with
    | none => simp [dequeueStep, hq] at hstep
    | some q =>
      cases hp : heapPop q with
      | none => simp [dequeueStep, hq, hp] at hstep
      | some p =>
        obtain ⟨it2, q'⟩ := p
        rw [dequeueStep_some hq hp] at hstep
        obtain ⟨-, rfl⟩ : it2 = it' ∧
            ({ s with queueMap := mapSet s.queueMap r q' } : QState) = s' := by
          have := Option.some.inj hstep
          exact ⟨congrArg Prod.fst this, congrArg Prod.snd this⟩
        simp [mapSet, h]

/-- Witness for C10: enqueuing on route `"a"` does not change route `"b"`. -/
theorem c10_witness :
    (enqueueOp initQState "a" ⟨"v", 1, 0⟩).queueMap "b"
      = initQState.queueMap "b" :=
  (c10_route_isolation initQState "a" "b" ⟨"v", 1, 0⟩ (by decide)).1

/-- C7 (confirmed): a request that fails validation — a wrong argument count
for any built-in command, or a `push` whose priority does not parse as a
signed 64-bit integer — produces an error outcome and performs no side
effect: the routed queue state after handling equals the state before. -/
theorem c7_validation_error_no_side_effect (name : String) (args : List String)
    (s : QState) (h : badAritySpec name args ∨ badPushPrioritySpec name args) :
    isErrorOutcome (handleRequest name args s).1 = true ∧
    (handleRequest name args s).2 = s := by
  rcases h with h | h
  · rcases h with ⟨rfl, hlen⟩ | ⟨rfl, hlen⟩ | ⟨rfl, hlen⟩ | ⟨rfl, hlen⟩ |
      ⟨rfl, hlen⟩ | ⟨rfl, hlen⟩
    · simp only [handleRequest, resolve_ping, NewPingCommand]
      rw [if_pos hlen]
      exact ⟨rfl, rfl⟩
    · simp only [handleRequest, resolve_echo, NewEchoCommand]
      rw [if_pos hlen]
      exact ⟨rfl, rfl⟩
    · simp only [handleRequest, resolve_push, NewPushCommand]
      rw [if_pos hlen]
      exact ⟨rfl, rfl⟩
    · simp only [handleRequest, resolve_pop, NewPopCommand]
      rw [if_pos hlen]
      exact ⟨rfl, rfl⟩
    · simp only [handleRequest, resolve_length, NewLengthCommand]
      rw [if_pos hlen]
      exact ⟨rfl, rfl⟩
    · simp only [handleRequest, resolve_quit, NewQuitCommand]
      rw [if_pos hlen]
      exact ⟨rfl, rfl⟩
  · obtain ⟨rfl, hlen3, e, he⟩ := h
    have hne : ¬ args.length ≠ 3 := by omega
    simp only [handleRequest, resolve_push, NewPushCommand]
    rw [if_neg hne]
    simp only [execCommand]
    rw [if_neg hne, he]
    exact ⟨rfl, rfl⟩

/-- Witness for C7: `push` with an unparseable priority errs and leaves the
fresh state untouched. -/
theorem c7_witness :
    isErrorOutcome (handleRequest "push" ["q", "v", "notanint"] initQState).1
      = true ∧
    (handleRequest "push" ["q", "v", "notanint"] initQState).2 = initQState :=
  c7_validation_error_no_side_effect "push" ["q", "v", "notanint"] initQState
    (Or.inr ⟨rfl, rfl, GoErr.atoiSyntax "notanint", rfl⟩)

/-- C8 (confirmed): `Length` on a never-used route returns 0, and after `k`
enqueues followed by `j` (non-blocking) dequeues on a route, with `j ≤ k`,
`Length` returns `k − j`. -/
theorem c8_length_counts (route : String) (items : List Item) (j : Nat)
    (h : j ≤ items.length) :
    lengthOp initQState route = 0 ∧
    lengthOp (dequeueN (enqueueAll initQState route items) route j) route
      = items.length - j := by
  refine ⟨rfl, ?_⟩
  have hlen : lengthOp (enqueueAll initQState route items) route
      = items.length := by
    rw [lengthOp_eq_getQ, enqueueAll_getQ]
    have hinit : getQ initQState route = [] := rfl
    rw [hinit, foldl_heapPush_length]
    simp
  rw [dequeueN_length j _ route (by omega), hlen]

/-- Witness for C8: two pushes and one pop on route `"q"` leave length 1. -/
theorem c8_witness :
    lengthOp initQState "q" = 0 ∧
    lengthOp (dequeueN (enqueueAll initQState "q"
      [⟨"a", 1, 0⟩, ⟨"b", 2, 0⟩]) "q" 1) "q" = 2 - 1 :=
  c8_length_counts "q" [⟨"a", 1, 0⟩, ⟨"b", 2, 0⟩] 1 (by decide)

/-- C1 counterexample: the claimed FIFO tie-break among equal priorities is
false.  Enqueuing `a`, `b`, `c` — in this order, all with priority 0 — on one
route and dequeuing three times returns `a, c, b`, not the oldest-first order
`a, b, c`: `Item` carries no sequence number and the binary heap is not
stable. -/
theorem c1_counterexample :
    (popOutputs (enqueueAll initQState "route"
        [⟨"a", 0, 0⟩, ⟨"b", 0, 0⟩, ⟨"c", 0, 0⟩]) "route" 3).map Item.value
      = ["a", "c", "b"] ∧
    (["a", "c", "b"] : List String) ≠ ["a", "b", "c"] :=
  ⟨rfl, by decide⟩

/-- C1 (amended): for every sequence of enqueues on one route followed by
dequeues on that route, the dequeued items are exactly the enqueued
value–priority pairs (as a multiset) in weakly decreasing priority order —
so each dequeue returns an item of maximal priority among those remaining —
but the order among items of equal priority is the heap's, not FIFO. -/
theorem c1_dequeue_descending_priority (route : String)
    (ps : List (String × Int)) :
    (keyList (popOutputs (enqueueAll initQState route
        (ps.map fun p => ⟨p.1, p.2, 0⟩)) route ps.length)).Perm ps ∧
    (popOutputs (enqueueAll initQState route
        (ps.map fun p => ⟨p.1, p.2, 0⟩)) route ps.length).Pairwise
      (fun a b => b.priority ≤ a.priority) := by
  have hgq : getQ (enqueueAll initQState route
      (ps.map fun p => ⟨p.1, p.2, 0⟩)) route
      = (ps.map fun p => ⟨p.1, p.2, 0⟩).foldl heapPush [] := by
    rw [enqueueAll_getQ]
    rfl
  have hL : ((ps.map fun p => ⟨p.1, p.2, 0⟩).foldl heapPush []).length
      = ps.length := by
    rw [foldl_heapPush_length]; simp
  have hheap := foldl_heapPush_isHeap (ps.map fun p => ⟨p.1, p.2, 0⟩) [] isHeap_nil
  have hout : popOutputs (enqueueAll initQState route
      (ps.map fun p => ⟨p.1, p.2, 0⟩)) route ps.length
      = popN ((ps.map fun p => ⟨p.1, p.2, 0⟩).foldl heapPush []) ps.length := by
    rw [popOutputs_eq_popN, hgq]
  obtain ⟨hperm, hpair⟩ := popN_spec ps.length
    ((ps.map fun p => ⟨p.1, p.2, 0⟩).foldl heapPush []) hL hheap
  have hkeys : (keyList ((ps.map fun p => ⟨p.1, p.2, 0⟩).foldl
      heapPush [])).Perm ps := by
    refine (foldl_heapPush_keyPerm _ []).trans ?_
    simp only [keyList, List.map_nil, List.append_nil, List.map_map]
    have hcomp : (Item.key ∘ fun p : String × Int => (⟨p.1, p.2, 0⟩ : Item))
        = id := rfl
    rw [hcomp, List.map_id]
  rw [hout]
  exact ⟨hperm.trans hkeys, hpair⟩
